import Mathlib

/-!
Shallow embedding of the core of the File_Upload document-chat application:

* the chunk extractor (app/pdf_processor.py, PDFProcessor.create_pdf_chunks),
* the keyword relevance ranker (app/ui_chat.py, ChatWithPDFUI.find_relevant_content),
* the thread store (app/chat_memory.py, ChatMemoryManager).

Modelling conventions: Python strings are List Char, timestamps are Nat,
uuid4 generation is a fresh-id counter held in the store state, and the
chat_threads directory (one JSON log file per thread id) is a function
from thread id to an optional message list.
-/

/-- Python str.split() with no argument: split on whitespace runs, dropping
empty strings.  The accumulator holds the characters of the current word in
reverse order. -/
def pyWordsAux : List Char → List Char → List (List Char)
  | [], acc => if acc = [] then [] else [acc.reverse]
  | c :: cs, acc =>
    if c.isWhitespace then
      if acc = [] then pyWordsAux cs [] else acc.reverse :: pyWordsAux cs []
    else pyWordsAux cs (c :: acc)

/-- Python content.split(): the whitespace-delimited word list of a string. -/
def pyWords (s : List Char) : List (List Char) := pyWordsAux s []

/-- Python " ".join(words). -/
def joinWords : List (List Char) → List Char
  | [] => []
  | [w] => w
  | w :: ws => w ++ ' ' :: joinWords ws

/-- One page of extracted PDF text as produced by
PDFProcessor.extract_text_with_pages. -/
structure Page where
  page_number : Nat
  content : List Char
deriving DecidableEq, Repr

/-- One chunk emitted by PDFProcessor.create_pdf_chunks. -/
structure Chunk where
  chunk_id : Nat
  page_number : Nat
  content : List Char
deriving DecidableEq, Repr

/-- The inner word loop of PDFProcessor.create_pdf_chunks for one oversized
page: greedily accumulate words into current_chunk; when adding the next
word would push current_length past chunk_size (and the chunk is nonempty),
emit the chunk and start a new one with that word; flush the remainder at
the end.  Mirrors the Python loop including its current_length bookkeeping
(the started-after-flush chunk counts its first word without the +1 for a
separator). -/
def wordGroups (chunk_size : Nat) : List (List Char) → List (List Char) → Nat → List (List (List Char))
  | [], current_chunk, _ =>
    if current_chunk = [] then [] else [current_chunk]
  | word :: words, current_chunk, current_length =>
    if chunk_size < current_length + word.length ∧ current_chunk ≠ [] then
      current_chunk :: wordGroups chunk_size words [word] word.length
    else
      wordGroups chunk_size words (current_chunk ++ [word]) (current_length + word.length + 1)

/-- The chunk contents produced for a single page by
PDFProcessor.create_pdf_chunks: a page whose content fits in chunk_size is
emitted whole; otherwise the page is split by the greedy word loop. -/
def pageChunkContents (chunk_size : Nat) (content : List Char) : List (List Char) :=
  if content.length ≤ chunk_size then [content]
  else (wordGroups chunk_size (pyWords content) [] 0).map joinWords

/-- Attach consecutive chunk ids (monotonic across the document) and the
page number to a page's chunk contents. -/
def mkChunks (chunk_id page_num : Nat) : List (List Char) → List Chunk
  | [] => []
  | c :: cs =>
    { chunk_id := chunk_id, page_number := page_num, content := c } :: mkChunks (chunk_id + 1) page_num cs

/-- PDFProcessor.create_pdf_chunks, processing the pages in order while
threading the document-wide chunk_id counter. -/
def create_pdf_chunksAux (chunk_size : Nat) : List Page → Nat → List Chunk
  | [], _ => []
  | p :: ps, chunk_id =>
    let contents := pageChunkContents chunk_size p.content
    mkChunks chunk_id p.page_number contents ++
      create_pdf_chunksAux chunk_size ps (chunk_id + contents.length)

/-- PDFProcessor.create_pdf_chunks(pages_content, chunk_size): all chunks of
the document, chunk ids starting at 0. -/
def create_pdf_chunks (pages_content : List Page) (chunk_size : Nat) : List Chunk :=
  create_pdf_chunksAux chunk_size pages_content 0

theorem pyWordsAux_all_nonspace (w : List Char) (t : List Char)
    (hw : ∀ ch ∈ w, ¬ ch.isWhitespace) :
    ∀ acc, pyWordsAux (w ++ t) acc = pyWordsAux t (w.reverse ++ acc) := by
  induction w with
  | nil => intro acc; simp
  | cons c w ih =>
    intro acc
    have hc : ¬ c.isWhitespace := hw c (by simp)
    have hw' : ∀ ch ∈ w, ¬ ch.isWhitespace := fun ch hch => hw ch (by simp [hch])
    simp only [List.cons_append, pyWordsAux, if_neg hc, List.append_eq]
    rw [ih hw' (c :: acc)]
    simp

theorem pyWords_word_append (w rest : List Char) (hne : w ≠ [])
    (hw : ∀ ch ∈ w, ¬ ch.isWhitespace) :
    pyWords (w ++ ' ' :: rest) = w :: pyWords rest := by
  unfold pyWords
  rw [pyWordsAux_all_nonspace w (' ' :: rest) hw []]
  have hsp : (' ' : Char).isWhitespace := by decide
  simp [pyWordsAux, hsp, hne]

theorem pyWords_single_word (w : List Char) (hne : w ≠ [])
    (hw : ∀ ch ∈ w, ¬ ch.isWhitespace) :
    pyWords w = [w] := by
  unfold pyWords
  have : w = w ++ [] := by simp
  rw [this, pyWordsAux_all_nonspace w [] hw []]
  simp [pyWordsAux, hne]

theorem pyWordsAux_good (s : List Char) :
    ∀ acc, (∀ ch ∈ acc, ¬ ch.isWhitespace) →
      ∀ w ∈ pyWordsAux s acc, w ≠ [] ∧ ∀ ch ∈ w, ¬ ch.isWhitespace := by
  induction s with
  | nil =>
    intro acc hacc w hmem
    by_cases h : acc = []
    · simp [pyWordsAux, h] at hmem
    · simp [pyWordsAux, h] at hmem
      subst hmem
      exact ⟨by simp [h], fun ch hch => hacc ch (List.mem_reverse.mp hch)⟩
  | cons c cs ih =>
    intro acc hacc w hmem
    by_cases hc : c.isWhitespace
    · by_cases h : acc = []
      · simp only [pyWordsAux, if_pos hc, if_pos h] at hmem
        exact ih [] (by simp) w hmem
      · simp only [pyWordsAux, if_pos hc, if_neg h, List.mem_cons] at hmem
        rcases hmem with rfl | hmem
        · exact ⟨by simp [h], fun ch hch => hacc ch (List.mem_reverse.mp hch)⟩
        · exact ih [] (by simp) w hmem
    · simp only [pyWordsAux, if_neg hc] at hmem
      refine ih (c :: acc) ?_ w hmem
      intro ch hch
      rcases List.mem_cons.mp hch with rfl | hch
      · exact hc
      · exact hacc ch hch

theorem pyWords_good (s : List Char) :
    ∀ w ∈ pyWords s, w ≠ [] ∧ ∀ ch ∈ w, ¬ ch.isWhitespace :=
  pyWordsAux_good s [] (by simp)

theorem joinWords_append_single (cur : List (List Char)) (w : List Char) (h : cur ≠ []) :
    joinWords (cur ++ [w]) = joinWords cur ++ ' ' :: w := by
  induction cur with
  | nil => exact absurd rfl h
  | cons x xs ih =>
    cases xs with
    | nil => simp [joinWords]
    | cons y ys =>
      have hys : y :: ys ≠ [] := by simp
      calc joinWords (x :: y :: ys ++ [w])
          = x ++ ' ' :: joinWords (y :: (ys ++ [w])) := by simp [joinWords]
        _ = x ++ ' ' :: (joinWords (y :: ys) ++ ' ' :: w) := by rw [← List.cons_append, ih hys]
        _ = joinWords (x :: y :: ys) ++ ' ' :: w := by simp [joinWords]

theorem pyWords_joinWords (g : List (List Char))
    (hg : ∀ w ∈ g, w ≠ [] ∧ ∀ ch ∈ w, ¬ ch.isWhitespace) :
    pyWords (joinWords g) = g := by
  induction g with
  | nil => rfl
  | cons w g ih =>
    cases g with
    | nil => exact pyWords_single_word w (hg w (by simp)).1 (hg w (by simp)).2
    | cons w2 g2 =>
      have hjoin : joinWords (w :: w2 :: g2) = w ++ ' ' :: joinWords (w2 :: g2) := by
        simp [joinWords]
      rw [hjoin, pyWords_word_append w _ (hg w (by simp)).1 (hg w (by simp)).2,
        ih (fun v hv => hg v (by simp [hv]))]

theorem wordGroups_flatten (chunk_size : Nat) (ws : List (List Char)) :
    ∀ cur cl, (wordGroups chunk_size ws cur cl).flatten = cur ++ ws := by
  induction ws with
  | nil =>
    intro cur cl
    by_cases h : cur = [] <;> simp [wordGroups, h]
  | cons w ws ih =>
    intro cur cl
    simp only [wordGroups]
    split
    · simp [ih]
    · simp [ih]

theorem wordGroups_mem_subset (chunk_size : Nat) (ws : List (List Char)) :
    ∀ cur cl g, g ∈ wordGroups chunk_size ws cur cl → ∀ w ∈ g, w ∈ cur ∨ w ∈ ws := by
  induction ws with
  | nil =>
    intro cur cl g hg w hw
    by_cases h : cur = [] <;> simp [wordGroups, h] at hg
    subst hg
    exact Or.inl hw
  | cons x ws ih =>
    intro cur cl g hg w hw
    simp only [wordGroups] at hg
    split at hg
    · rcases List.mem_cons.mp hg with rfl | hg
      · exact Or.inl hw
      · rcases ih [x] x.length g hg w hw with h | h
        · simp at h
          simp [h]
        · simp [h]
    · rcases ih (cur ++ [x]) (cl + x.length + 1) g hg w hw with h | h
      · rcases List.mem_append.mp h with h | h
        · exact Or.inl h
        · simp at h
          simp [h]
      · simp [h]

theorem wordGroups_multiword_bound (chunk_size : Nat) (ws : List (List Char)) :
    ∀ cur cl, (joinWords cur).length ≤ cl →
      (2 ≤ cur.length → (joinWords cur).length ≤ chunk_size + 1) →
      ∀ g ∈ wordGroups chunk_size ws cur cl, 2 ≤ g.length →
        (joinWords g).length ≤ chunk_size + 1 := by
  induction ws with
  | nil =>
    intro cur cl h1 h2 g hg hlen
    by_cases h : cur = [] <;> simp [wordGroups, h] at hg
    subst hg
    exact h2 hlen
  | cons w ws ih =>
    intro cur cl h1 h2 g hg hlen
    simp only [wordGroups] at hg
    split at hg
    · rename_i hcond
      rcases List.mem_cons.mp hg with rfl | hg
      · exact h2 hlen
      · refine ih [w] w.length (by simp [joinWords]) ?_ g hg hlen
        intro habs
        simp at habs
    · rename_i hcond
      refine ih (cur ++ [w]) (cl + w.length + 1) ?_ ?_ g hg hlen
      · by_cases h : cur = []
        · subst h
          simp only [List.nil_append]
          have hw1 : joinWords [w] = w := rfl
          rw [hw1]
          omega
        · rw [joinWords_append_single cur w h]
          simp only [List.length_append, List.length_cons]
          omega
      · intro habs
        by_cases h : cur = []
        · subst h
          simp only [List.nil_append, List.length_cons, List.length_nil] at habs
          omega
        · have hle : cl + w.length ≤ chunk_size := by
            by_contra hgt
            exact hcond ⟨by omega, h⟩
          rw [joinWords_append_single cur w h]
          simp only [List.length_append, List.length_cons]
          omega

theorem pageChunkContents_bound (chunk_size : Nat) (content : List Char) :
    ∀ s ∈ pageChunkContents chunk_size content,
      s.length ≤ chunk_size + 1 ∨ (pyWords s).length = 1 := by
  unfold pageChunkContents
  split
  · rename_i hle
    intro s hs
    simp at hs
    subst hs
    exact Or.inl (by omega)
  · intro s hs
    simp only [List.mem_map] at hs
    obtain ⟨g, hg, rfl⟩ := hs
    have hgood : ∀ w ∈ g, w ≠ [] ∧ ∀ ch ∈ w, ¬ ch.isWhitespace := by
      intro w hw
      rcases wordGroups_mem_subset chunk_size (pyWords content) [] 0 g hg w hw with h | h
      · simp at h
      · exact pyWords_good content w h
    match g, hg, hgood with
    | [], _, _ =>
      exact Or.inl (by simp [joinWords])
    | [w], hg, hgood =>
      right
      rw [pyWords_joinWords [w] hgood]
      rfl
    | w1 :: w2 :: g2, hg, hgood =>
      left
      exact wordGroups_multiword_bound chunk_size (pyWords content) [] 0
        (by simp [joinWords]) (by intro h; simp at h) _ hg
        (by simp only [List.length_cons]; omega)

theorem mkChunks_map_content (n : Nat) (l : List (List Char)) :
    ∀ cid, (mkChunks cid n l).map Chunk.content = l := by
  induction l with
  | nil => intro cid; rfl
  | cons c cs ih => intro cid; simp [mkChunks, ih]

theorem mem_mkChunks (n : Nat) (l : List (List Char)) :
    ∀ cid c, c ∈ mkChunks cid n l → c.page_number = n ∧ c.content ∈ l := by
  induction l with
  | nil => intro cid c hc; simp [mkChunks] at hc
  | cons x xs ih =>
    intro cid c hc
    rcases List.mem_cons.mp hc with rfl | hc
    · exact ⟨rfl, by simp⟩
    · obtain ⟨h1, h2⟩ := ih (cid + 1) c hc
      exact ⟨h1, by simp [h2]⟩

theorem mem_create_pdf_chunksAux (chunk_size : Nat) (ps : List Page) :
    ∀ cid c, c ∈ create_pdf_chunksAux chunk_size ps cid →
      ∃ p ∈ ps, c.page_number = p.page_number ∧
        c.content ∈ pageChunkContents chunk_size p.content := by
  induction ps with
  | nil => intro cid c hc; simp [create_pdf_chunksAux] at hc
  | cons p ps ih =>
    intro cid c hc
    simp only [create_pdf_chunksAux, List.mem_append] at hc
    rcases hc with hc | hc
    · obtain ⟨h1, h2⟩ := mem_mkChunks p.page_number _ cid c hc
      exact ⟨p, by simp, h1, h2⟩
    · obtain ⟨q, hq, h1, h2⟩ := ih _ c hc
      exact ⟨q, by simp [hq], h1, h2⟩

theorem create_pdf_chunksAux_filter_ne (chunk_size : Nat) (ps : List Page) (n : Nat)
    (h : n ∉ ps.map Page.page_number) (cid : Nat) :
    (create_pdf_chunksAux chunk_size ps cid).filter (fun c => c.page_number == n) = [] := by
  rw [List.filter_eq_nil_iff]
  intro c hc
  obtain ⟨p, hp, h1, _⟩ := mem_create_pdf_chunksAux chunk_size ps cid c hc
  simp only [beq_iff_eq]
  intro heq
  apply h
  rw [← heq, h1]
  exact List.mem_map_of_mem Page.page_number hp

theorem mkChunks_filter_self (n : Nat) (l : List (List Char)) (cid : Nat) :
    (mkChunks cid n l).filter (fun c => c.page_number == n) = mkChunks cid n l := by
  rw [List.filter_eq_self]
  intro c hc
  simp [(mem_mkChunks n l cid c hc).1]

theorem create_pdf_chunksAux_filter_eq (chunk_size : Nat) (p : Page) :
    ∀ ps : List Page, (ps.map Page.page_number).Nodup → p ∈ ps →
      ∀ cid, ∃ cid2,
        (create_pdf_chunksAux chunk_size ps cid).filter
            (fun c => c.page_number == p.page_number) =
          mkChunks cid2 p.page_number (pageChunkContents chunk_size p.content) := by
  intro ps
  induction ps with
  | nil => intro _ hp; cases hp
  | cons q ps ih =>
    intro hnd hp cid
    simp only [List.map_cons, List.nodup_cons] at hnd
    simp only [create_pdf_chunksAux, List.filter_append]
    rcases List.mem_cons.mp hp with rfl | hp'
    · refine ⟨cid, ?_⟩
      rw [mkChunks_filter_self, create_pdf_chunksAux_filter_ne chunk_size ps p.page_number hnd.1]
      simp
    · have hne : q.page_number ≠ p.page_number := by
        intro heq
        exact hnd.1 (heq ▸ List.mem_map_of_mem Page.page_number hp')
      have hq : (mkChunks cid q.page_number (pageChunkContents chunk_size q.content)).filter
          (fun c => c.page_number == p.page_number) = [] := by
        rw [List.filter_eq_nil_iff]
        intro c hc
        have hcq := (mem_mkChunks _ _ cid c hc).1
        simp [hcq, hne]
      rw [hq]
      obtain ⟨cid2, h2⟩ := ih hnd.2 hp'
        (cid + (pageChunkContents chunk_size q.content).length)
      exact ⟨cid2, by simp [h2]⟩

theorem pageChunkContents_words (chunk_size : Nat) (content : List Char) :
    ((pageChunkContents chunk_size content).map pyWords).flatten = pyWords content := by
  unfold pageChunkContents
  split
  · simp
  · rw [List.map_map]
    have hcong : (wordGroups chunk_size (pyWords content) [] 0).map (pyWords ∘ joinWords) =
        (wordGroups chunk_size (pyWords content) [] 0).map id := by
      apply List.map_congr_left
      intro g hg
      have hgood : ∀ w ∈ g, w ≠ [] ∧ ∀ ch ∈ w, ¬ ch.isWhitespace := by
        intro w hw
        rcases wordGroups_mem_subset chunk_size (pyWords content) [] 0 g hg w hw with h | h
        · simp at h
        · exact pyWords_good content w h
      simp [pyWords_joinWords g hgood]
    rw [hcong, List.map_id, wordGroups_flatten]
    simp

theorem pageChunkContents_nil (chunk_size : Nat) :
    pageChunkContents chunk_size [] = [[]] := by
  simp [pageChunkContents]

/-- C3 counterexample: with chunk_size 5 and the single page "aaaaaa bb ccc",
create_pdf_chunks emits the chunk "bb ccc" which has 6 > 5 characters and
consists of two words, so the claimed bound of chunk_size characters
(single-word chunks excepted) is violated. -/
theorem create_pdf_chunks_claim_size_false :
    ¬ (∀ c ∈ create_pdf_chunks [{ page_number := 1, content := "aaaaaa bb ccc".toList }] 5,
        c.content.length ≤ 5 ∨ (pyWords c.content).length = 1) := by decide

/-- C3 (amended): every chunk emitted by create_pdf_chunks has content of
length at most chunk_size + 1, except chunks consisting of a single word. -/
theorem create_pdf_chunks_size_bound (pages : List Page) (chunk_size : Nat) (c : Chunk)
    (hc : c ∈ create_pdf_chunks pages chunk_size) :
    c.content.length ≤ chunk_size + 1 ∨ (pyWords c.content).length = 1 := by
  obtain ⟨p, _, _, hcontent⟩ :=
    mem_create_pdf_chunksAux chunk_size pages 0 c hc
  exact pageChunkContents_bound chunk_size p.content c.content hcontent

theorem create_pdf_chunks_size_bound_witness :
    ({ chunk_id := 1, page_number := 1, content := "bb ccc".toList } : Chunk).content.length ≤ 5 + 1 ∨
      (pyWords ({ chunk_id := 1, page_number := 1, content := "bb ccc".toList } : Chunk).content).length = 1 :=
  create_pdf_chunks_size_bound [{ page_number := 1, content := "aaaaaa bb ccc".toList }] 5
    { chunk_id := 1, page_number := 1, content := "bb ccc".toList } (by decide)

/-- C4: for every input page of a document with distinct page numbers,
concatenating the word sequences of the chunks emitted for that page, in
emission order, yields exactly the page's whitespace-delimited word
sequence. -/
theorem create_pdf_chunks_page_lossless (pages : List Page) (chunk_size : Nat) (p : Page)
    (hnd : (pages.map Page.page_number).Nodup) (hp : p ∈ pages) :
    (((create_pdf_chunks pages chunk_size).filter
        (fun c => c.page_number == p.page_number)).map (fun c => pyWords c.content)).flatten =
      pyWords p.content := by
  obtain ⟨cid2, heq⟩ := create_pdf_chunksAux_filter_eq chunk_size p pages hnd hp 0
  rw [create_pdf_chunks, heq]
  have hm : (mkChunks cid2 p.page_number (pageChunkContents chunk_size p.content)).map
      (fun c => pyWords c.content) = (pageChunkContents chunk_size p.content).map pyWords := by
    calc (mkChunks cid2 p.page_number (pageChunkContents chunk_size p.content)).map
          (fun c => pyWords c.content)
        = ((mkChunks cid2 p.page_number (pageChunkContents chunk_size p.content)).map
            Chunk.content).map pyWords := by rw [List.map_map]; rfl
      _ = (pageChunkContents chunk_size p.content).map pyWords := by
            rw [mkChunks_map_content]
  rw [hm, pageChunkContents_words]

theorem create_pdf_chunks_page_lossless_witness :
    (((create_pdf_chunks [{ page_number := 1, content := "aaaaaa bb ccc".toList }] 5).filter
        (fun c => c.page_number == 1)).map (fun c => pyWords c.content)).flatten =
      pyWords "aaaaaa bb ccc".toList :=
  create_pdf_chunks_page_lossless [{ page_number := 1, content := "aaaaaa bb ccc".toList }] 5
    { page_number := 1, content := "aaaaaa bb ccc".toList } (by decide) (by decide)

/-- C6 counterexample: a page whose content is the empty string yields one
chunk (with empty content), not zero chunks. -/
theorem create_pdf_chunks_claim_empty_false :
    create_pdf_chunks [{ page_number := 1, content := [] }] 1000 ≠ [] := by decide

/-- C6 (amended): for every page of a document with distinct page numbers
whose content is the empty string, create_pdf_chunks emits exactly one chunk
for that page, and its content is the empty string. -/
theorem create_pdf_chunks_empty_page (pages : List Page) (chunk_size : Nat) (p : Page)
    (hnd : (pages.map Page.page_number).Nodup) (hp : p ∈ pages) (hempty : p.content = []) :
    ((create_pdf_chunks pages chunk_size).filter
        (fun c => c.page_number == p.page_number)).map Chunk.content = [[]] := by
  obtain ⟨cid2, heq⟩ := create_pdf_chunksAux_filter_eq chunk_size p pages hnd hp 0
  rw [create_pdf_chunks, heq, mkChunks_map_content, hempty, pageChunkContents_nil]

theorem create_pdf_chunks_empty_page_witness :
    ((create_pdf_chunks [{ page_number := 1, content := [] }] 1000).filter
        (fun c => c.page_number == 1)).map Chunk.content = [[]] :=
  create_pdf_chunks_empty_page [{ page_number := 1, content := [] }] 1000
    { page_number := 1, content := [] } (by decide) (by decide) (by decide)

/-- Stable descending insertion by key: the new element goes before the
first already-placed element whose key is less than or equal to its own, so
on equal keys earlier input elements stay first. -/
def insertDesc {α β : Type} [LinearOrder β] (key : α → β) (x : α) : List α → List α
  | [] => [x]
  | y :: ys => if key y ≤ key x then x :: y :: ys else y :: insertDesc key x ys

/-- Python list.sort(key=..., reverse=True): a stable sort putting the
largest key first. -/
def sortDesc {α β : Type} [LinearOrder β] (key : α → β) : List α → List α
  | [] => []
  | x :: xs => insertDesc key x (sortDesc key xs)

theorem insertDesc_perm {α β : Type} [LinearOrder β] (key : α → β) (x : α) (l : List α) :
    List.Perm (insertDesc key x l) (x :: l) := by
  induction l with
  | nil => rfl
  | cons y ys ih =>
    simp only [insertDesc]
    split
    · rfl
    · exact (ih.cons y).trans (List.Perm.swap x y ys)

theorem sortDesc_perm {α β : Type} [LinearOrder β] (key : α → β) (l : List α) :
    List.Perm (sortDesc key l) l := by
  induction l with
  | nil => rfl
  | cons x xs ih => exact (insertDesc_perm key x (sortDesc key xs)).trans (ih.cons x)

theorem mem_sortDesc {α β : Type} [LinearOrder β] (key : α → β) (l : List α) (a : α) :
    a ∈ sortDesc key l ↔ a ∈ l :=
  (sortDesc_perm key l).mem_iff

/-- A chunk scored by find_relevant_content, before the top-5 cut. -/
structure RankedChunk where
  content : List Char
  page_number : Nat
  score : ℚ
deriving DecidableEq, Repr

/-- A source record returned alongside the retrieved content
(page_number and content of a retrieved chunk). -/
structure SourceRef where
  page_number : Nat
  content : List Char
deriving DecidableEq, Repr

/-- Python set(text.lower().split()): the deduplicated lower-cased
whitespace token list of a string. -/
def tokenSet (s : List Char) : List (List Char) :=
  (pyWords (s.map Char.toLower)).dedup

/-- The token-overlap count of ChatWithPDFUI.find_relevant_content:
the number of question tokens also present in the chunk's token set. -/
def overlapCount (question : List Char) (c : Chunk) : Nat :=
  ((tokenSet question).filter (fun w => (tokenSet c.content).contains w)).length

/-- The relevant_chunks list built by find_relevant_content: chunks with
nonzero overlap, scored by overlap divided by the number of question
tokens; the division is only reached under the overlap > 0 guard. -/
def relevantChunks (question : List Char) (chunks : List Chunk) : List RankedChunk :=
  chunks.filterMap (fun c =>
    if 0 < overlapCount question c then
      some { content := c.content, page_number := c.page_number,
             score := (overlapCount question c : ℚ) / ((tokenSet question).length : ℚ) }
    else none)

/-- ChatWithPDFUI.find_relevant_content: sort the relevant chunks by score
descending (stable) and keep the top 5, returning their contents and
(page_number, content) source records. -/
def find_relevant_content (question : List Char) (chunks : List Chunk) :
    List (List Char) × List SourceRef :=
  let top := (sortDesc RankedChunk.score (relevantChunks question chunks)).take 5
  (top.map RankedChunk.content,
    top.map (fun c => { page_number := c.page_number, content := c.content }))

/-- C7: if the query tokenizes to zero tokens, or no chunk shares a token
with the query, find_relevant_content returns the empty result (no error);
moreover every scored chunk arises only when the query has at least one
token, so the score division by the number of query tokens never has a
zero divisor. -/
theorem find_relevant_content_empty_safe :
    (∀ question chunks,
        (tokenSet question = [] ∨ ∀ c ∈ chunks, overlapCount question c = 0) →
        find_relevant_content question chunks = ([], [])) ∧
    (∀ question chunks rc, rc ∈ relevantChunks question chunks →
        0 < (tokenSet question).length) := by
  constructor
  · intro question chunks h
    have hrel : relevantChunks question chunks = [] := by
      rw [relevantChunks, List.filterMap_eq_nil_iff]
      intro c hc
      have hov : overlapCount question c = 0 := by
        rcases h with h | h
        · rw [overlapCount, h]
          rfl
        · exact h c hc
      simp [hov]
    rw [find_relevant_content, hrel]
    rfl
  · intro question chunks rc hrc
    rw [relevantChunks] at hrc
    obtain ⟨c, hc, hsome⟩ := List.mem_filterMap.mp hrc
    by_cases hov : 0 < overlapCount question c
    · have hle := List.length_filter_le
        (fun w => (tokenSet c.content).contains w) (tokenSet question)
      rw [overlapCount] at hov
      omega
    · simp [hov] at hsome

theorem find_relevant_content_empty_safe_witness :
    find_relevant_content [] [] = ([], []) :=
  find_relevant_content_empty_safe.1 [] [] (Or.inl (by decide))

/-- One question/answer message pair as stored in a thread's log file
(chat_memory.py, add_message_to_thread). -/
structure Message where
  question : List Char
  answer : List Char
  sources : List SourceRef
  timestamp : Nat
deriving DecidableEq, Repr

/-- One thread metadata record of the threads index
(chat_memory.py, create_new_thread).  Thread and pdf ids are abstract
identifiers, modelled as Nat. -/
structure Thread where
  thread_id : Nat
  title : List Char
  pdf_file_id : Nat
  pdf_filename : List Char
  created_at : Nat
  updated_at : Nat
  message_count : Nat
deriving DecidableEq, Repr

/-- The persistent state of ChatMemoryManager: the threads_index.json list,
the chat_threads directory of per-thread log files (a map from thread id to
an optional message list, none meaning the file does not exist), and the
uuid4 source modelled as a fresh-id counter. -/
structure Store where
  index : List Thread
  logs : Nat → Option (List Message)
  nextId : Nat

/-- A fresh store: empty index, no log files. -/
def emptyStore : Store := { index := [], logs := fun _ => none, nextId := 0 }

/-- Writing a thread's log file (creates the file or overwrites it). -/
def writeLog (logs : Nat → Option (List Message)) (thread_id : Nat)
    (messages : List Message) : Nat → Option (List Message) :=
  fun j => if j = thread_id then some messages else logs j

/-- Deleting a thread's log file (unlink; a no-op when the file is absent). -/
def removeLog (logs : Nat → Option (List Message)) (thread_id : Nat) :
    Nat → Option (List Message) :=
  fun j => if j = thread_id then none else logs j

/-- ChatMemoryManager.load_thread_messages: the log file's message list, or
[] when the file is missing. -/
def load_thread_messages (s : Store) (thread_id : Nat) : List Message :=
  (s.logs thread_id).getD []

/-- ChatMemoryManager.save_threads_index sorts the index by updated_at
descending (a stable sort) before writing the file. -/
def sortIndex (threads : List Thread) : List Thread :=
  sortDesc Thread.updated_at threads

/-- Update the first list entry satisfying p, in place. -/
def updateFirst {α : Type} (p : α → Bool) (f : α → α) : List α → List α
  | [] => []
  | x :: xs => if p x then f x :: xs else x :: updateFirst p f xs

/-- ChatMemoryManager.update_thread_metadata: apply the update to the first
matching index entry and re-save (re-sort) the index, reporting whether the
thread was found; on a miss the index file is left untouched. -/
def update_thread_metadata (s : Store) (thread_id : Nat) (f : Thread → Thread) :
    Store × Bool :=
  if s.index.any (fun t => t.thread_id == thread_id) then
    ({ s with
        index := sortIndex (updateFirst (fun t => t.thread_id == thread_id) f s.index) },
      true)
  else (s, false)

/-- ChatMemoryManager.save_thread_messages: write the log file, then set
the index entry's message_count to the saved length and its updated_at to
now; the boolean result of the index update is discarded, as in the
source. -/
def save_thread_messages (s : Store) (thread_id : Nat) (messages : List Message)
    (now : Nat) : Store :=
  let s1 : Store := { s with logs := writeLog s.logs thread_id messages }
  (update_thread_metadata s1 thread_id
    (fun t => { t with message_count := messages.length, updated_at := now })).1

/-- The title derivation in ChatMemoryManager.create_new_thread:
first_question[:50] with "..." appended when the question is longer than
50 characters. -/
def mkTitle (first_question : List Char) : List Char :=
  first_question.take 50 ++
    (if 50 < first_question.length then ['.', '.', '.'] else [])

/-- ChatMemoryManager.create_new_thread: a fresh id, a metadata record with
message_count 0 inserted at the head of the index which is then saved
(sorted), followed by creation of an empty log file via
save_thread_messages. -/
def create_new_thread (s : Store) (pdf_file_id : Nat)
    (pdf_filename first_question : List Char) (now : Nat) : Nat × Store :=
  let thread_id := s.nextId
  let thread_data : Thread :=
    { thread_id := thread_id, title := mkTitle first_question,
      pdf_file_id := pdf_file_id, pdf_filename := pdf_filename,
      created_at := now, updated_at := now, message_count := 0 }
  let s1 : Store :=
    { index := sortIndex (thread_data :: s.index), logs := s.logs,
      nextId := s.nextId + 1 }
  (thread_id, save_thread_messages s1 thread_id [] now)

/-- ChatMemoryManager.add_message_to_thread: load the log (empty when the
file is missing), append the message pair, and save_thread_messages. -/
def add_message_to_thread (s : Store) (thread_id : Nat) (question answer : List Char)
    (sources : List SourceRef) (now : Nat) : Store :=
  let messages := load_thread_messages s thread_id
  save_thread_messages s thread_id
    (messages ++
      [{ question := question, answer := answer, sources := sources, timestamp := now }])
    now

/-- ChatMemoryManager.delete_thread: filter the entry out of the index; if
nothing was removed, report failure and stop (the log file is not touched);
otherwise save the index and unlink the log file. -/
def delete_thread (s : Store) (thread_id : Nat) : Store × Bool :=
  let threads := s.index.filter (fun t => !(t.thread_id == thread_id))
  if threads.length == s.index.length then (s, false)
  else ({ s with index := sortIndex threads, logs := removeLog s.logs thread_id }, true)

/-- Python q in s on strings, helper: does s start with q. -/
def startsWithChars : List Char → List Char → Bool
  | [], _ => true
  | _ :: _, [] => false
  | c :: q, d :: s => c == d && startsWithChars q s

/-- Python q in s on strings: q occurs contiguously in s. -/
def isSubstr (q : List Char) : List Char → Bool
  | [] => q.isEmpty
  | c :: s => startsWithChars q (c :: s) || isSubstr q s

/-- ChatMemoryManager.search_threads: lower-case the query; keep a thread
if the query occurs in its lower-cased title, else if it occurs in any
lower-cased question or answer of the thread's message log. -/
def search_threads (s : Store) (query : List Char) : List Thread :=
  let q := query.map Char.toLower
  s.index.filter (fun t =>
    isSubstr q (t.title.map Char.toLower) ||
      (load_thread_messages s t.thread_id).any (fun m =>
        isSubstr q (m.question.map Char.toLower) ||
          isSubstr q (m.answer.map Char.toLower)))

/-- ChatMemoryManager.cleanup_orphaned_threads: keep threads whose
pdf_file_id is among valid_pdf_ids; unlink the log file of each dropped
thread; the shrunken index is saved only when something was removed;
return the number removed. -/
def cleanup_orphaned_threads (s : Store) (valid_pdf_ids : List Nat) : Nat × Store :=
  let keep := s.index.filter (fun t => valid_pdf_ids.contains t.pdf_file_id)
  let removed := s.index.filter (fun t => !(valid_pdf_ids.contains t.pdf_file_id))
  let logs1 := removed.foldl (fun lg t => removeLog lg t.thread_id) s.logs
  if 0 < removed.length then
    (removed.length, { index := sortIndex keep, logs := logs1, nextId := s.nextId })
  else (removed.length, { s with logs := logs1 })

theorem update_thread_metadata_not_found (s : Store) (thread_id : Nat) (f : Thread → Thread)
    (h : s.index.any (fun t => t.thread_id == thread_id) = false) :
    update_thread_metadata s thread_id f = (s, false) := by
  rw [update_thread_metadata, if_neg]
  simp [h]

theorem isSubstr_nil (s : List Char) : isSubstr [] s = true := by
  cases s <;> simp [isSubstr, startsWithChars, List.isEmpty]

/-- C10: searching with the empty query returns the whole index unchanged:
every thread matches by title, because the empty string is a substring of
every title, so each thread is returned exactly once in index order and
the message-log fallback is never consulted. -/
theorem search_threads_empty_query (s : Store) : search_threads s [] = s.index := by
  simp only [search_threads, List.map_nil]
  rw [List.filter_eq_self]
  intro t ht
  simp [isSubstr_nil]

/-- C2 counterexample: adding a message for the unknown thread id 7 to the
empty store does not leave the message-log collection unchanged (and no
error is raised): a stray log file for id 7 is created. -/
theorem add_message_unknown_claim_false :
    ¬ ((add_message_to_thread emptyStore 7 ['q'] ['a'] [] 0).logs 7 =
        emptyStore.logs 7) := by
  decide

/-- C2 (amended): for a thread_id with no index entry,
add_message_to_thread raises no error: it leaves the index unchanged (the
index update reports failure, which the source discards) but still
persists the appended message to that thread's log, creating a stray log
file if none existed. -/
theorem add_message_unknown_id (s : Store) (thread_id : Nat)
    (question answer : List Char) (sources : List SourceRef) (now : Nat)
    (h : ∀ t ∈ s.index, t.thread_id ≠ thread_id) :
    (add_message_to_thread s thread_id question answer sources now).index = s.index ∧
      (add_message_to_thread s thread_id question answer sources now).logs thread_id =
        some (load_thread_messages s thread_id ++
          [{ question := question, answer := answer, sources := sources,
             timestamp := now }]) := by
  have hany : s.index.any (fun t => t.thread_id == thread_id) = false := by
    rw [List.any_eq_false]
    intro t ht
    simpa using h t ht
  have hcond : ∀ (lg : Nat → Option (List Message)) (f : Thread → Thread),
      update_thread_metadata { index := s.index, logs := lg, nextId := s.nextId }
          thread_id f =
        ({ index := s.index, logs := lg, nextId := s.nextId }, false) :=
    fun lg f => update_thread_metadata_not_found _ _ _ hany
  simp only [add_message_to_thread, save_thread_messages, hcond]
  exact ⟨trivial, by simp [writeLog]⟩

theorem add_message_unknown_id_witness :
    (add_message_to_thread emptyStore 7 ['q'] ['a'] [] 0).index = emptyStore.index ∧
      (add_message_to_thread emptyStore 7 ['q'] ['a'] [] 0).logs 7 =
        some (load_thread_messages emptyStore 7 ++
          [{ question := ['q'], answer := ['a'], sources := [], timestamp := 0 }]) :=
  add_message_unknown_id emptyStore 7 ['q'] ['a'] [] 0
    (by intro t ht; simp [emptyStore] at ht)

/-- C8 counterexample: deleting the unknown thread id 3 while a stray log
file for id 3 exists returns failure WITHOUT attempting removal of the
stray log: the log file is still present afterwards. -/
theorem delete_thread_unknown_claim_false :
    ¬ ((delete_thread
          { index := [], logs := writeLog emptyStore.logs 3 [], nextId := 0 } 3).1.logs 3 =
        none) := by
  decide

/-- C8 (amended): delete_thread on a thread_id with no index entry returns
a failure signal and leaves the entire store unchanged; in particular a
stray message-log resource for that id is NOT removed. -/
theorem delete_thread_unknown_id (s : Store) (thread_id : Nat)
    (h : ∀ t ∈ s.index, t.thread_id ≠ thread_id) :
    delete_thread s thread_id = (s, false) := by
  have hfilter : s.index.filter (fun t => !(t.thread_id == thread_id)) = s.index := by
    rw [List.filter_eq_self]
    intro t ht
    simp [h t ht]
  simp [delete_thread, hfilter]

theorem delete_thread_unknown_id_witness :
    delete_thread emptyStore 3 = (emptyStore, false) :=
  delete_thread_unknown_id emptyStore 3 (by intro t ht; simp [emptyStore] at ht)

theorem cleanup_clean (valid_pdf_ids : List Nat) (u : Store)
    (h : ∀ t ∈ u.index, valid_pdf_ids.contains t.pdf_file_id = true) :
    cleanup_orphaned_threads u valid_pdf_ids = (0, u) := by
  have hrem : u.index.filter (fun t => !(valid_pdf_ids.contains t.pdf_file_id)) = [] := by
    rw [List.filter_eq_nil_iff]
    intro t ht
    rw [h t ht]
    simp
  simp only [cleanup_orphaned_threads, hrem]
  rfl

theorem cleanup_result (valid_pdf_ids : List Nat) (u : Store) :
    (cleanup_orphaned_threads u valid_pdf_ids).1 =
      (u.index.filter (fun t => !(valid_pdf_ids.contains t.pdf_file_id))).length ∧
    ∀ t, t ∈ (cleanup_orphaned_threads u valid_pdf_ids).2.index ↔
      t ∈ u.index ∧ valid_pdf_ids.contains t.pdf_file_id = true := by
  by_cases hpos :
      0 < (u.index.filter (fun t => !(valid_pdf_ids.contains t.pdf_file_id))).length
  · simp only [cleanup_orphaned_threads, if_pos hpos]
    refine ⟨by trivial, fun t => ?_⟩
    rw [sortIndex, mem_sortDesc, List.mem_filter]
  · have hrem : u.index.filter (fun t => !(valid_pdf_ids.contains t.pdf_file_id)) = [] :=
      List.length_eq_zero.mp (by omega)
    have hall : ∀ t ∈ u.index, valid_pdf_ids.contains t.pdf_file_id = true := by
      intro t ht
      have h2 := List.filter_eq_nil_iff.mp hrem t ht
      simpa using h2
    rw [cleanup_clean valid_pdf_ids u hall]
    refine ⟨by rw [hrem]; rfl, fun t => ?_⟩
    constructor
    · intro ht
      exact ⟨ht, hall t ht⟩
    · intro ht
      exact ht.1

/-- C9: cleanup_orphaned_threads removes exactly the threads whose
pdf_file_id is not in valid_pdf_ids, returns the exact number removed, and
is idempotent: an immediately repeated call with the same set removes 0
and leaves the store (index and logs) unchanged. -/
theorem cleanup_orphaned_threads_exact (s : Store) (valid_pdf_ids : List Nat) :
    (∀ t, t ∈ (cleanup_orphaned_threads s valid_pdf_ids).2.index ↔
        t ∈ s.index ∧ valid_pdf_ids.contains t.pdf_file_id = true) ∧
    (cleanup_orphaned_threads s valid_pdf_ids).1 =
      (s.index.filter (fun t => !(valid_pdf_ids.contains t.pdf_file_id))).length ∧
    cleanup_orphaned_threads (cleanup_orphaned_threads s valid_pdf_ids).2 valid_pdf_ids =
      (0, (cleanup_orphaned_threads s valid_pdf_ids).2) := by
  obtain ⟨hcount, hmem⟩ := cleanup_result valid_pdf_ids s
  refine ⟨hmem, hcount, ?_⟩
  apply cleanup_clean
  intro t ht
  exact ((hmem t).mp ht).2

theorem updateFirst_filter_single {α : Type} (p : α → Bool) (f : α → α)
    (hpf : ∀ x, p (f x) = p x) :
    ∀ (l : List α) (a : α), l.filter p = [a] →
      (updateFirst p f l).filter p = [f a] := by
  intro l
  induction l with
  | nil => intro a ha; simp at ha
  | cons x xs ih =>
    intro a ha
    by_cases hx : p x
    · rw [List.filter_cons_of_pos hx] at ha
      obtain ⟨rfl, hnil⟩ : x = a ∧ xs.filter p = [] := by
        constructor
        · exact (List.cons_eq_cons.mp ha).1
        · exact (List.cons_eq_cons.mp ha).2
      rw [updateFirst, if_pos hx, List.filter_cons_of_pos (by rw [hpf]; exact hx), hnil]
    · rw [List.filter_cons_of_neg hx] at ha
      rw [updateFirst, if_neg hx, List.filter_cons_of_neg hx]
      exact ih a ha

theorem save_thread_messages_filter (s : Store) (i : Nat) (msgs : List Message)
    (now : Nat) (a : Thread)
    (h : s.index.filter (fun t => t.thread_id == i) = [a]) :
    (save_thread_messages s i msgs now).index.filter (fun t => t.thread_id == i) =
      [{ a with message_count := msgs.length, updated_at := now }] := by
  have hmema : a ∈ s.index.filter (fun t => t.thread_id == i) := by
    rw [h]
    simp
  have hany : s.index.any (fun t => t.thread_id == i) = true := by
    rw [List.any_eq_true]
    exact ⟨a, (List.mem_filter.mp hmema).1, (List.mem_filter.mp hmema).2⟩
  simp only [save_thread_messages, update_thread_metadata]
  rw [if_pos hany]
  have hupd := updateFirst_filter_single (fun t => t.thread_id == i)
    (fun t => { t with message_count := msgs.length, updated_at := now })
    (fun x => rfl) s.index a h
  have hperm := (sortDesc_perm Thread.updated_at
    (updateFirst (fun t => t.thread_id == i)
      (fun t => { t with message_count := msgs.length, updated_at := now })
      s.index)).filter (fun t => t.thread_id == i)
  rw [sortIndex]
  exact (hperm.trans (by rw [hupd])).eq_singleton

theorem sortIndex_filter_cons (a : Thread) (l : List Thread) (i : Nat)
    (ha : (a.thread_id == i) = true)
    (hl : l.filter (fun t => t.thread_id == i) = []) :
    (sortIndex (a :: l)).filter (fun t => t.thread_id == i) = [a] := by
  rw [sortIndex]
  refine (((sortDesc_perm Thread.updated_at (a :: l)).filter
    (fun t => t.thread_id == i)).trans ?_).eq_singleton
  have hc : List.filter (fun t => t.thread_id == i) (a :: l) =
      a :: List.filter (fun t => t.thread_id == i) l := List.filter_cons_of_pos ha
  rw [hc, hl]

theorem create_new_thread_filter (s : Store) (pdf_file_id : Nat)
    (pdf_filename first_question : List Char) (now : Nat)
    (hfresh : ∀ t ∈ s.index, t.thread_id ≠ s.nextId) :
    (create_new_thread s pdf_file_id pdf_filename first_question now).2.index.filter
        (fun t => t.thread_id == s.nextId) =
      [{ thread_id := s.nextId, title := mkTitle first_question,
         pdf_file_id := pdf_file_id, pdf_filename := pdf_filename,
         created_at := now, updated_at := now, message_count := 0 }] := by
  have hnil : s.index.filter (fun t => t.thread_id == s.nextId) = [] := by
    rw [List.filter_eq_nil_iff]
    intro t ht
    simp [hfresh t ht]
  have key := save_thread_messages_filter
    { index := sortIndex
        ({ thread_id := s.nextId, title := mkTitle first_question,
           pdf_file_id := pdf_file_id, pdf_filename := pdf_filename,
           created_at := now, updated_at := now, message_count := 0 } :: s.index),
      logs := s.logs, nextId := s.nextId + 1 }
    s.nextId [] now
    { thread_id := s.nextId, title := mkTitle first_question,
      pdf_file_id := pdf_file_id, pdf_filename := pdf_filename,
      created_at := now, updated_at := now, message_count := 0 }
    (sortIndex_filter_cons
      { thread_id := s.nextId, title := mkTitle first_question,
        pdf_file_id := pdf_file_id, pdf_filename := pdf_filename,
        created_at := now, updated_at := now, message_count := 0 }
      s.index s.nextId (by simp) hnil)
  simp only [create_new_thread]
  exact key

/-- C5 counterexample: create_new_thread with a 51-character first question
produces a title of 53 characters (the first 50 plus "..."), so the claimed
bound of at most 50 characters fails. -/
theorem create_new_thread_title_claim_false :
    ¬ (∀ t ∈ (create_new_thread emptyStore 1 [] (List.replicate 51 'a') 0).2.index,
        t.title.length ≤ 50) := by
  decide

/-- C5 (amended): create_new_thread derives the new thread's title from the
first 50 characters of the question, with "..." appended exactly when the
question is longer than 50 characters; the resulting title has at most 53
characters (not 50: a truncated title is exactly 53 characters long). -/
theorem create_new_thread_title (s : Store) (pdf_file_id : Nat)
    (pdf_filename first_question : List Char) (now : Nat)
    (hfresh : ∀ t ∈ s.index, t.thread_id ≠ s.nextId) :
    (((create_new_thread s pdf_file_id pdf_filename first_question now).2.index.filter
        (fun t => t.thread_id == s.nextId)).map Thread.title =
      [first_question.take 50 ++
        (if 50 < first_question.length then ['.', '.', '.'] else [])]) ∧
    ∀ t ∈ (create_new_thread s pdf_file_id pdf_filename first_question now).2.index,
      t.thread_id = s.nextId → t.title.length ≤ 53 := by
  have hf := create_new_thread_filter s pdf_file_id pdf_filename first_question now hfresh
  constructor
  · rw [hf]
    simp [mkTitle]
  · intro t ht hid
    have htf : t ∈ (create_new_thread s pdf_file_id pdf_filename
        first_question now).2.index.filter (fun t => t.thread_id == s.nextId) := by
      rw [List.mem_filter]
      exact ⟨ht, by simp [hid]⟩
    rw [hf] at htf
    simp only [List.mem_singleton] at htf
    subst htf
    show (mkTitle first_question).length ≤ 53
    rw [mkTitle, List.length_append, List.length_take]
    by_cases hlen : 50 < first_question.length
    · rw [if_pos hlen]
      simp only [List.length_cons, List.length_nil]
      omega
    · rw [if_neg hlen]
      simp only [List.length_nil]
      omega

theorem create_new_thread_title_witness :
    (((create_new_thread emptyStore 1 [] (List.replicate 51 'a') 0).2.index.filter
        (fun t => t.thread_id == emptyStore.nextId)).map Thread.title =
      [(List.replicate 51 'a').take 50 ++
        (if 50 < (List.replicate 51 'a').length then ['.', '.', '.'] else [])]) ∧
    ∀ t ∈ (create_new_thread emptyStore 1 [] (List.replicate 51 'a') 0).2.index,
      t.thread_id = emptyStore.nextId → t.title.length ≤ 53 :=
  create_new_thread_title emptyStore 1 [] (List.replicate 51 'a') 0
    (by intro t ht; simp [emptyStore] at ht)

/-- The thread-store operations quantified over in the message_count
invariant; each mutating operation carries the clock value it runs at. -/
inductive StoreOp where
  | create (pdf_file_id : Nat) (pdf_filename first_question : List Char) (now : Nat)
  | addMessage (thread_id : Nat) (question answer : List Char)
      (sources : List SourceRef) (now : Nat)
  | delete (thread_id : Nat)
  | cleanup (valid_pdf_ids : List Nat)

/-- Apply one thread-store operation, discarding returned values. -/
def applyOp (s : Store) : StoreOp → Store
  | .create pid pfn q now => (create_new_thread s pid pfn q now).2
  | .addMessage i q a srcs now => add_message_to_thread s i q a srcs now
  | .delete i => (delete_thread s i).1
  | .cleanup valid => (cleanup_orphaned_threads s valid).2

/-- Apply a sequence of thread-store operations to a store. -/
def applyOps (ops : List StoreOp) (s : Store) : Store :=
  ops.foldl applyOp s

/-- The inductive store invariant: index entries have pairwise distinct
thread ids, every id is below the fresh-id counter, and each entry's
message_count equals the length of its persisted message log. -/
def StoreInv (s : Store) : Prop :=
  s.index.Pairwise (fun a b => a.thread_id ≠ b.thread_id) ∧
  (∀ t ∈ s.index, t.thread_id < s.nextId) ∧
  (∀ t ∈ s.index, t.message_count = (load_thread_messages s t.thread_id).length)

theorem sortIndex_pairwise (l : List Thread)
    (h : l.Pairwise (fun a b => a.thread_id ≠ b.thread_id)) :
    (sortIndex l).Pairwise (fun a b => a.thread_id ≠ b.thread_id) := by
  rw [sortIndex]
  exact ((sortDesc_perm Thread.updated_at l).pairwise_iff
    (fun hxy => Ne.symm hxy)).mpr h

theorem map_eq_self_of {α : Type} (l : List α) (f : α → α) (h : ∀ a ∈ l, f a = a) :
    l.map f = l := by
  induction l with
  | nil => rfl
  | cons x xs ih => simp [h x (by simp), ih (fun a ha => h a (by simp [ha]))]

theorem updateFirst_eq_map (i : Nat) (f : Thread → Thread) :
    ∀ l : List Thread, l.Pairwise (fun a b => a.thread_id ≠ b.thread_id) →
      updateFirst (fun t => t.thread_id == i) f l =
        l.map (fun t => if t.thread_id = i then f t else t) := by
  intro l
  induction l with
  | nil => intro _; rfl
  | cons x xs ih =>
    intro hp
    rw [List.pairwise_cons] at hp
    by_cases hx : x.thread_id = i
    · rw [updateFirst, if_pos (by simp [hx]), List.map_cons, if_pos hx]
      congr 1
      symm
      apply map_eq_self_of
      intro a ha
      rw [if_neg]
      intro hai
      exact (hp.1 a ha) (hx.trans hai.symm)
    · rw [updateFirst, if_neg (by simp [hx]), List.map_cons, if_neg hx, ih hp.2]

theorem cond_update_id (i : Nat) (f : Thread → Thread)
    (hf : ∀ t, (f t).thread_id = t.thread_id) (t : Thread) :
    (if t.thread_id = i then f t else t).thread_id = t.thread_id := by
  by_cases h : t.thread_id = i
  · rw [if_pos h, hf]
  · rw [if_neg h]

theorem writeLog_self (logs : Nat → Option (List Message)) (i : Nat) (m : List Message) :
    writeLog logs i m i = some m := by
  simp [writeLog]

theorem writeLog_other (logs : Nat → Option (List Message)) (i j : Nat) (m : List Message)
    (h : j ≠ i) : writeLog logs i m j = logs j := by
  simp [writeLog, h]

theorem removeLog_other (logs : Nat → Option (List Message)) (i j : Nat)
    (h : j ≠ i) : removeLog logs i j = logs j := by
  simp [removeLog, h]

theorem foldl_removeLog_other (ts : List Thread) :
    ∀ (logs : Nat → Option (List Message)) (j : Nat), (∀ u ∈ ts, u.thread_id ≠ j) →
      ts.foldl (fun lg u => removeLog lg u.thread_id) logs j = logs j := by
  induction ts with
  | nil => intro logs j _; rfl
  | cons u ts ih =>
    intro logs j h
    rw [List.foldl_cons, ih (removeLog logs u.thread_id) j
      (fun v hv => h v (by simp [hv]))]
    exact removeLog_other _ _ _ (fun hj => (h u (by simp)) hj.symm)

theorem save_thread_messages_inv (s : Store) (i : Nat) (msgs : List Message) (now : Nat)
    (h1 : s.index.Pairwise (fun a b => a.thread_id ≠ b.thread_id))
    (h2 : ∀ t ∈ s.index, t.thread_id < s.nextId)
    (h3 : ∀ t ∈ s.index, t.thread_id ≠ i →
      t.message_count = (load_thread_messages s t.thread_id).length) :
    StoreInv (save_thread_messages s i msgs now) ∧
      (save_thread_messages s i msgs now).nextId = s.nextId := by
  by_cases hany : s.index.any (fun t => t.thread_id == i) = true
  · simp only [save_thread_messages, update_thread_metadata, if_pos hany]
    rw [updateFirst_eq_map i _ s.index h1]
    refine ⟨⟨?_, ?_, ?_⟩, by trivial⟩
    · apply sortIndex_pairwise
      refine List.Pairwise.map _ ?_ h1
      intro a b hab
      rw [cond_update_id i
            (fun t => { t with message_count := msgs.length, updated_at := now })
            (fun t => rfl) a,
          cond_update_id i
            (fun t => { t with message_count := msgs.length, updated_at := now })
            (fun t => rfl) b]
      exact hab
    · intro t ht
      rw [sortIndex, mem_sortDesc, List.mem_map] at ht
      obtain ⟨x, hx, rfl⟩ := ht
      by_cases hxi : x.thread_id = i
      · rw [if_pos hxi]
        exact h2 x hx
      · rw [if_neg hxi]
        exact h2 x hx
    · intro t ht
      rw [sortIndex, mem_sortDesc, List.mem_map] at ht
      obtain ⟨x, hx, rfl⟩ := ht
      by_cases hxi : x.thread_id = i
      · rw [if_pos hxi]
        show msgs.length = ((writeLog s.logs i msgs x.thread_id).getD []).length
        rw [hxi, writeLog_self]
        rfl
      · rw [if_neg hxi]
        show x.message_count = ((writeLog s.logs i msgs x.thread_id).getD []).length
        rw [writeLog_other s.logs i x.thread_id msgs hxi]
        exact h3 x hx hxi
  · rw [Bool.not_eq_true] at hany
    have hne : ∀ t ∈ s.index, t.thread_id ≠ i := by
      rw [List.any_eq_false] at hany
      intro t ht
      simpa using hany t ht
    have hcond : ∀ (lg : Nat → Option (List Message)) (f : Thread → Thread),
        update_thread_metadata { index := s.index, logs := lg, nextId := s.nextId } i f =
          ({ index := s.index, logs := lg, nextId := s.nextId }, false) :=
      fun lg f => update_thread_metadata_not_found _ _ _ hany
    simp only [save_thread_messages, hcond]
    refine ⟨⟨h1, h2, ?_⟩, by trivial⟩
    intro t ht
    show t.message_count = ((writeLog s.logs i msgs t.thread_id).getD []).length
    rw [writeLog_other s.logs i t.thread_id msgs (hne t ht)]
    exact h3 t ht (hne t ht)

theorem storeInv_create (s : Store) (pid : Nat) (pfn q : List Char) (now : Nat)
    (h : StoreInv s) : StoreInv (create_new_thread s pid pfn q now).2 := by
  obtain ⟨h1, h2, h3⟩ := h
  have hfresh : ∀ t ∈ s.index, t.thread_id ≠ s.nextId :=
    fun t ht => Nat.ne_of_lt (h2 t ht)
  simp only [create_new_thread]
  refine (save_thread_messages_inv _ s.nextId [] now ?_ ?_ ?_).1
  · dsimp only
    apply sortIndex_pairwise
    rw [List.pairwise_cons]
    constructor
    · intro t ht heq
      exact hfresh t ht heq.symm
    · exact h1
  · dsimp only
    intro t ht
    rw [sortIndex, mem_sortDesc] at ht
    rcases List.mem_cons.mp ht with rfl | ht
    · show s.nextId < s.nextId + 1
      omega
    · have := h2 t ht
      omega
  · dsimp only
    intro t ht hne
    rw [sortIndex, mem_sortDesc] at ht
    rcases List.mem_cons.mp ht with rfl | ht
    · exact absurd rfl hne
    · exact h3 t ht

theorem storeInv_addMessage (s : Store) (i : Nat) (q a : List Char)
    (srcs : List SourceRef) (now : Nat) (h : StoreInv s) :
    StoreInv (add_message_to_thread s i q a srcs now) := by
  obtain ⟨h1, h2, h3⟩ := h
  simp only [add_message_to_thread]
  exact (save_thread_messages_inv s i _ now h1 h2 (fun t ht _ => h3 t ht)).1

theorem storeInv_delete (s : Store) (i : Nat) (h : StoreInv s) :
    StoreInv (delete_thread s i).1 := by
  obtain ⟨h1, h2, h3⟩ := h
  simp only [delete_thread]
  split
  · exact ⟨h1, h2, h3⟩
  · refine ⟨?_, ?_, ?_⟩
    · exact sortIndex_pairwise _ (List.Pairwise.sublist (List.filter_sublist _) h1)
    · intro t ht
      rw [sortIndex, mem_sortDesc, List.mem_filter] at ht
      exact h2 t ht.1
    · intro t ht
      rw [sortIndex, mem_sortDesc, List.mem_filter] at ht
      have hti : t.thread_id ≠ i := by simpa using ht.2
      show t.message_count = ((removeLog s.logs i t.thread_id).getD []).length
      rw [removeLog_other s.logs i t.thread_id hti]
      exact h3 t ht.1

theorem storeInv_cleanup (s : Store) (valid : List Nat) (h : StoreInv s) :
    StoreInv (cleanup_orphaned_threads s valid).2 := by
  obtain ⟨h1, h2, h3⟩ := h
  simp only [cleanup_orphaned_threads]
  split
  · refine ⟨?_, ?_, ?_⟩
    · exact sortIndex_pairwise _ (List.Pairwise.sublist (List.filter_sublist _) h1)
    · intro t ht
      rw [sortIndex, mem_sortDesc, List.mem_filter] at ht
      exact h2 t ht.1
    · intro t ht
      rw [sortIndex, mem_sortDesc, List.mem_filter] at ht
      have hid : ∀ u ∈ s.index.filter (fun v => !(valid.contains v.pdf_file_id)),
          u.thread_id ≠ t.thread_id := by
        intro u hu
        rw [List.mem_filter] at hu
        have hut : u ≠ t := by
          intro he
          rw [he] at hu
          rw [ht.2] at hu
          simp at hu
        exact List.Pairwise.forall (fun _ _ hxy => Ne.symm hxy) h1 hu.1 ht.1 hut
      show t.message_count =
        ((List.foldl (fun lg u => removeLog lg u.thread_id) s.logs
          (s.index.filter (fun v => !(valid.contains v.pdf_file_id)))
            t.thread_id).getD []).length
      rw [foldl_removeLog_other _ s.logs t.thread_id hid]
      exact h3 t ht.1
  · rename_i hcond
    have hrem : s.index.filter (fun v => !(valid.contains v.pdf_file_id)) = [] := by
      rw [← List.length_eq_zero]
      omega
    refine ⟨h1, h2, ?_⟩
    intro t ht
    show t.message_count =
      ((List.foldl (fun lg u => removeLog lg u.thread_id) s.logs
        (s.index.filter (fun v => !(valid.contains v.pdf_file_id)))
          t.thread_id).getD []).length
    rw [hrem]
    exact h3 t ht

theorem storeInv_applyOp (s : Store) (op : StoreOp) (h : StoreInv s) :
    StoreInv (applyOp s op) := by
  cases op with
  | create pid pfn q now => exact storeInv_create s pid pfn q now h
  | addMessage i q a srcs now => exact storeInv_addMessage s i q a srcs now h
  | delete i => exact storeInv_delete s i h
  | cleanup valid => exact storeInv_cleanup s valid h

theorem storeInv_applyOps (ops : List StoreOp) :
    ∀ s : Store, StoreInv s → StoreInv (applyOps ops s) := by
  induction ops with
  | nil => intro s h; exact h
  | cons op ops ih =>
    intro s h
    exact ih (applyOp s op) (storeInv_applyOp s op h)

theorem storeInv_empty : StoreInv emptyStore :=
  ⟨List.Pairwise.nil, by intro t ht; simp [emptyStore] at ht,
    by intro t ht; simp [emptyStore] at ht⟩

/-- C1: after every sequence of thread-store operations (create_new_thread,
add_message_to_thread, delete_thread, cleanup_orphaned_threads) starting
from a fresh store, every thread in the index has message_count equal to
the length of that thread's persisted message log. -/
theorem message_count_invariant (ops : List StoreOp) :
    ∀ t ∈ (applyOps ops emptyStore).index,
      t.message_count =
        (load_thread_messages (applyOps ops emptyStore) t.thread_id).length :=
  (storeInv_applyOps ops emptyStore storeInv_empty).2.2

theorem message_count_invariant_witness :
    ({ thread_id := 0, title := ['q'], pdf_file_id := 1, pdf_filename := [],
       created_at := 0, updated_at := 0, message_count := 0 } : Thread).message_count =
      (load_thread_messages
        (applyOps [StoreOp.create 1 [] ['q'] 0] emptyStore)
        ({ thread_id := 0, title := ['q'], pdf_file_id := 1, pdf_filename := [],
           created_at := 0, updated_at := 0, message_count := 0 } : Thread).thread_id).length :=
  message_count_invariant [StoreOp.create 1 [] ['q'] 0]
    { thread_id := 0, title := ['q'], pdf_file_id := 1, pdf_filename := [],
      created_at := 0, updated_at := 0, message_count := 0 }
    (by decide)

